import Mathlib

/-!
Verification development for the valhalla-mm trading client.

The development shallowly embeds the order translation and submission engine:
the tick/price converter, the authorization gate run before order-affecting
calls, the three order orchestrators (market order, limit order, cancel), and
the batched balance query.  Network effects are made explicit: each operation
returns, alongside its result, the list of chain actions it performed
(allowance reads, approval transactions, order submissions, decoder calls),
and the chain's allowance ledger is threaded as explicit state.

Functions supplied by the external protocol SDK (tick math, result decoding)
are not part of the repository sources; the definitions for those carry a
doc comment starting with the words Modelled from the spec and follow the
specification's description of their numeric behaviour.
-/

/-- On-chain addresses, abstracted as naturals. -/
abbrev Address := Nat

/-- Buy/sell direction of a trade intent (the BS enum). -/
inductive BS
  | buy
  | sell
  deriving DecidableEq

/-- A token: on-chain address plus decimal precision. -/
structure Token where
  address : Address
  decimals : Nat
  deriving DecidableEq

/-- A market: base/quote token pair plus the book's tick spacing
(the MarketParams shape consumed by the orchestrators). -/
structure Market where
  base : Token
  quote : Token
  tickSpacing : Nat
  deriving DecidableEq

/-- Outcome status of a transaction receipt. -/
inductive TxStatus
  | success
  | reverted
  deriving DecidableEq

/-- A transaction receipt: status plus the emitted event log.  Log entries are
abstracted as naturals; for cancellations an entry is the id of an offer whose
removal event the receipt contains.  Block number and hash are omitted: the
sources only print them. -/
structure Receipt where
  status : TxStatus
  logs : List Nat
  deriving DecidableEq

/-- Error taxonomy of the engine.  The sources throw plain errors with fixed
messages; these correspond to the specification's named error kinds. -/
inductive Err
  | invalidPrice
  | authorizationFailed
  | submissionFailed
  | tickOutOfRange
  deriving DecidableEq

instance {ε α : Type} [DecidableEq ε] [DecidableEq α] :
    DecidableEq (Except ε α) := fun x y =>
  match x, y with
  | .ok a, .ok b =>
    if h : a = b then .isTrue (by rw [h])
    else .isFalse (by intro hc; injection hc; contradiction)
  | .error a, .error b =>
    if h : a = b then .isTrue (by rw [h])
    else .isFalse (by intro hc; injection hc; contradiction)
  | .ok _, .error _ => .isFalse (by intro hc; exact Except.noConfusion hc)
  | .error _, .ok _ => .isFalse (by intro hc; exact Except.noConfusion hc)

/-- One observable chain action performed by an orchestrator, in order. -/
inductive Act
  | readAllowance (token spender : Address)
  | approveTx (token spender : Address) (amount : Nat)
  | readUserRouter
  | readBook
  | orderTx (tick : ℤ)
  | cancelTx (offerId : Nat)
  | decodeInvoked
  deriving DecidableEq

/-- The viem maxUint128 constant, the gate's safety threshold. -/
def maxUint128 : Nat := 2 ^ 128 - 1

/-- The viem maxUint256 constant, the default approval amount. -/
def maxUint256 : Nat := 2 ^ 256 - 1

/-- The Mangrove core contract address from the configuration params. -/
def mgvAddr : Address := 0x32360BB61fcb9cDCDD44eD44328b848061c0b9D7

/-- Modelled from the spec: the protocol's maximum tick constant exported by
the protocol SDK, whose source is not in the repository.  The numeric value is
the Mangrove core bound; no theorem depends on the exact value, and the
definitions below take the bound as an explicit parameter instantiated with
this constant. -/
def MAX_TICK : Nat := 887272

/-- The chain's token-authorization ledger for the client account:
allowance of each spender on each token. -/
structure Chain where
  allowance : Address → Address → Nat

/-- Effect of a successful ERC20 approve transaction sent by the client
account: the allowance of the given spender on the given token becomes the
approved amount. -/
def Chain.approve (c : Chain) (token spender : Address) (amount : Nat) : Chain :=
  { allowance := fun t s =>
      if t = token ∧ s = spender then amount else c.allowance t s }

/-- The approval-check phase shared by marketOrder and limitOrder: read the
allowance of `checkSpender` on `token`; if it is below maxUint128, send an
approve transaction granting maxUint256 to `approveSpender` and wait for its
receipt (a reverted approval throws).  marketOrder passes the Mangrove core
address for both spenders; limitOrder checks the user router's allowance but
approves the Mangrove core address. -/
def approvalPhase (checkSpender approveSpender token : Address)
    (approveStatus : TxStatus) (c : Chain) : Except Err Chain × List Act :=
  if c.allowance token checkSpender < maxUint128 then
    match approveStatus with
    | .reverted =>
        (.error .authorizationFailed,
         [.readAllowance token checkSpender,
          .approveTx token approveSpender maxUint256])
    | .success =>
        (.ok (c.approve token approveSpender maxUint256),
         [.readAllowance token checkSpender,
          .approveTx token approveSpender maxUint256])
  else
    (.ok c, [.readAllowance token checkSpender])

/-- The token whose spending the gate checks: the quote token when buying the
base, the base token when selling it. -/
def tokenFor (bs : BS) (m : Market) : Address :=
  match bs with
  | .buy => m.quote.address
  | .sell => m.base.address

/-- Modelled from the spec: the base ratio of the protocol's logarithmic tick
grid (price of tick 1). -/
def tickBase : ℚ := 10001 / 10000

/-- Natural power by plain recursion.  The core rational operations are
irreducible, so the converter builds its rationals from numerators and
denominators computed with this function; the lemma powNat_eq identifies it
with the usual power. -/
def powNat (b : ℕ) : ℕ → ℕ
  | 0 => 1
  | n + 1 => b * powNat b n

/-- Modelled from the spec: the raw price sitting at grid tick t, the t-th
power of the base ratio.  The lemma gridPrice_eq_zpow identifies it with
tickBase ^ t. -/
def gridPrice (t : ℤ) : ℚ :=
  match t with
  | .ofNat n => mkRat (powNat 10001 n) (powNat 10000 n)
  | .negSucc n => mkRat (powNat 10000 (n + 1)) (powNat 10001 (n + 1))

/-- Modelled from the spec: the valid ticks of a market, the multiples of the
tick spacing whose magnitude stays within the protocol bound `maxT`, in
ascending order. -/
def gridTicks (maxT spacing : Nat) : List ℤ :=
  (List.range (2 * (maxT / spacing) + 1)).map
    (fun i : ℕ => ((i : ℤ) - ((maxT / spacing : ℕ) : ℤ)) * (spacing : ℤ))

/-- Maximum of a list of ticks, none for the empty list. -/
def listMax : List ℤ → Option ℤ
  | [] => none
  | t :: ts =>
    match listMax ts with
    | none => some t
    | some u => some (max t u)

/-- Modelled from the spec: the SDK's tickFromPrice, whose source is not in
the repository.  Per the specification it maps a raw price to the nearest
valid tick at the market's tick spacing, rounding toward the conservative
side (the greatest valid tick whose grid price does not exceed the requested
price), fails with the invalid-price error when the price is not positive,
and rejects prices below the representable grid so that no out-of-range tick
can reach submission. -/
def tickFromPrice (maxT spacing : Nat) (p : ℚ) : Except Err ℤ :=
  if p ≤ 0 then .error .invalidPrice
  else
    match listMax ((gridTicks maxT spacing).filter
        (fun t => decide (gridPrice t ≤ p))) with
    | none => .error .tickOutOfRange
    | some t => .ok t

/-- Modelled from the spec: the SDK's humanPriceToRawPrice, scaling the human
price by the quote/base decimal difference.  Implemented on the rational's
numerator and denominator so that concrete instances evaluate; the lemma
humanPriceToRawPrice_eq identifies it with multiplication by the power of
ten. -/
def humanPriceToRawPrice (p : ℚ) (m : Market) : ℚ :=
  if m.base.decimals ≤ m.quote.decimals then
    mkRat (p.num * (powNat 10 (m.quote.decimals - m.base.decimals) : ℕ)) p.den
  else
    mkRat p.num (p.den * powNat 10 (m.base.decimals - m.quote.decimals))

/-- The maxTick computation at the top of marketOrder: with no price bound the
protocol's maximum-tick sentinel is used; otherwise the human price is scaled
to a raw price, converted to a tick, and negated for a buy.  The sources guard
the bound with a JavaScript falsiness test, so a zero bound takes the same
branch as an absent one. -/
def marketTick (maxT : Nat) (m : Market) (maxPrice : Option ℚ) (bs : BS) :
    Except Err ℤ :=
  match maxPrice with
  | none => .ok (maxT : ℤ)
  | some p =>
    if p = 0 then .ok (maxT : ℤ)
    else
      match tickFromPrice maxT m.tickSpacing (humanPriceToRawPrice p m) with
      | .error e => .error e
      | .ok tick =>
        .ok (match bs with
             | .buy => -tick
             | .sell => tick)

/-- The tick computation of limitOrder: scale the human price to a raw price,
convert to a tick, negate for a buy.  No absent-price branch exists here: the
limit price is mandatory. -/
def limitTick (maxT : Nat) (m : Market) (p : ℚ) (bs : BS) : Except Err ℤ :=
  match tickFromPrice maxT m.tickSpacing (humanPriceToRawPrice p m) with
  | .error e => .error e
  | .ok tick =>
    .ok (match bs with
         | .buy => -tick
         | .sell => tick)

/-- Structured result decoded from a market-order receipt. -/
structure TradeResult where
  takerGot : Nat
  takerGave : Nat
  feePaid : Nat
  bounty : Nat
  deriving DecidableEq

/-- The resting offer extracted from a limit-order receipt, when one rested. -/
structure OfferResult where
  id : Nat
  tick : ℤ
  gives : Nat
  wants : Nat
  deriving DecidableEq

/-- Structured result decoded from a limit-order receipt. -/
structure LimitResult where
  takerGot : Nat
  takerGave : Nat
  feePaid : Nat
  bounty : Nat
  offer : Option OfferResult
  deriving DecidableEq

/-- Book and config snapshot consumed by the limit-order builder; its payload
is opaque to every property proved here. -/
structure Book where
  bidsConfig : Nat
  asksConfig : Nat
  marketConfig : Nat
  deriving DecidableEq

/-- Modelled from the spec: the success flag of the SDK's
removeOrderResultFromLogs.  The receipt's log list is abstracted as the ids of
the offers whose removal event it contains; the flag is true exactly when the
cancelled offer's removal event is present, and false, not an error, when the
offer no longer existed. -/
def removeOrderResultSuccess (r : Receipt) (offerId : Nat) : Bool :=
  r.logs.contains offerId

/-- The external world an orchestrator call runs against: the allowance
ledger, the outcome the chain gives an approval transaction, the receipt the
realtime channel returns for the order transaction, the resolved user router,
the fetched book, and the SDK log decoders for market and limit results (left
abstract: the properties proved here constrain only when they are invoked). -/
structure Env where
  chain : Chain
  approveStatus : TxStatus
  orderReceipt : Receipt
  userRouter : Address
  book : Book
  decodeMarket : Receipt → TradeResult
  decodeLimit : Receipt → LimitResult

/-- Parameters of marketOrder. -/
structure MarketOrderProps where
  market : Market
  bs : BS
  fillVolume : Nat
  fillWants : Bool
  maxPrice : Option ℚ
  skipApprovalCheck : Bool

/-- Resting-order type tag forwarded to the protocol. -/
inductive OrderType
  | GTC
  | PO
  deriving DecidableEq

/-- Parameters of limitOrder.  Routing-logic addresses, gas requirement,
expiry and attached value are forwarded opaquely by the sources and play no
role in any property proved here, so they are omitted. -/
structure LimitOrderProps where
  market : Market
  bs : BS
  fillVolume : Nat
  fillWants : Bool
  price : ℚ
  orderType : OrderType
  skipApprovalCheck : Bool
  userRouter : Option Address
  book : Option Book

/-- Parameters of cancelLimitOrder. -/
structure CancelProps where
  market : Market
  bs : BS
  offerId : Nat
  deprovision : Bool

/-- The approval phase of marketOrder: unless skipped, run the gate with the
Mangrove core address as both the checked and the approved spender, on the
token being given. -/
def marketGate (env : Env) (props : MarketOrderProps) :
    Except Err Chain × List Act :=
  if props.skipApprovalCheck then (.ok env.chain, [])
  else
    approvalPhase mgvAddr mgvAddr (tokenFor props.bs props.market)
      env.approveStatus env.chain

/-- The marketOrder orchestrator.  Faithful to the source's order of
operations: the maxTick computation runs first (so a price failure performs no
chain action), then the approval phase against the Mangrove core address, then
the order submission through the realtime channel; a reverted receipt throws
before the decoder runs, a successful one is decoded into a TradeResult. -/
def marketOrder (maxT : Nat) (env : Env) (props : MarketOrderProps) :
    Except Err (Receipt × TradeResult) × List Act :=
  match marketTick maxT props.market props.maxPrice props.bs with
  | .error e => (.error e, [])
  | .ok mt =>
    match (marketGate env props).1 with
    | .error e => (.error e, (marketGate env props).2)
    | .ok _ =>
      match env.orderReceipt.status with
      | .reverted =>
        (.error .submissionFailed, (marketGate env props).2 ++ [.orderTx mt])
      | .success =>
        (.ok (env.orderReceipt, env.decodeMarket env.orderReceipt),
         (marketGate env props).2 ++ [.orderTx mt, .decodeInvoked])

/-- The user-router resolution of limitOrder: the supplied address, or a
network read of the account's router when absent (the destructuring
default). -/
def limitRouter (env : Env) (props : LimitOrderProps) : Address × List Act :=
  match props.userRouter with
  | some r => (r, [])
  | none => (env.userRouter, [.readUserRouter])

/-- The approval phase of limitOrder: unless skipped, run the gate checking
the user router's allowance but granting the approval to the Mangrove core
address, exactly as the source does. -/
def limitGate (env : Env) (props : LimitOrderProps) :
    Except Err Chain × List Act :=
  if props.skipApprovalCheck then (.ok env.chain, [])
  else
    approvalPhase (limitRouter env props).1 mgvAddr
      (tokenFor props.bs props.market) env.approveStatus env.chain

/-- The chain actions limitOrder performs before building the order: the
router read, the book read when no book was supplied, and the approval
phase. -/
def limitPre (env : Env) (props : LimitOrderProps) : List Act :=
  (limitRouter env props).2
    ++ (match props.book with
        | some _ => []
        | none => [.readBook])
    ++ (limitGate env props).2

/-- The limitOrder orchestrator.  Faithful to the source's order of
operations: the user router and the book are fetched when not supplied, then
the approval phase runs, then the price is converted to a tick, the order
submitted, and a non-reverted receipt decoded. -/
def limitOrder (maxT : Nat) (env : Env) (props : LimitOrderProps) :
    Except Err (Receipt × LimitResult) × List Act :=
  match (limitGate env props).1 with
  | .error e => (.error e, limitPre env props)
  | .ok _ =>
    match limitTick maxT props.market props.price props.bs with
    | .error e => (.error e, limitPre env props)
    | .ok tick =>
      match env.orderReceipt.status with
      | .reverted =>
        (.error .submissionFailed, limitPre env props ++ [.orderTx tick])
      | .success =>
        (.ok (env.orderReceipt, env.decodeLimit env.orderReceipt),
         limitPre env props ++ [.orderTx tick, .decodeInvoked])

/-- The cancelLimitOrder orchestrator: build the removal parameters, submit,
throw on a reverted receipt, otherwise decode the success flag from the
logs. -/
def cancelLimitOrder (env : Env) (props : CancelProps) :
    Except Err (Receipt × Bool) × List Act :=
  match env.orderReceipt.status with
  | .reverted => (.error .submissionFailed, [.cancelTx props.offerId])
  | .success =>
    (.ok (env.orderReceipt, removeOrderResultSuccess env.orderReceipt props.offerId),
     [.cancelTx props.offerId, .decodeInvoked])

/-- JavaScript Map set semantics on an association list: update the value in
place when the key is present, append otherwise. -/
def mapSet (l : List (Address × Nat)) (k : Address) (v : Nat) :
    List (Address × Nat) :=
  if l.any (fun e => e.1 == k) then
    l.map (fun e => if e.1 = k then (k, v) else e)
  else l ++ [(k, v)]

/-- JavaScript Map get semantics on an association list. -/
def mapGet (l : List (Address × Nat)) (k : Address) : Option Nat :=
  (l.find? (fun e => e.1 == k)).map (fun e => e.2)

/-- The accumulation loop of getBalances: for each market, consume the next
two entries of the batched multicall results, writing the base balance then
the quote balance into the map. -/
def balancesGo : List Market → List Nat → List (Address × Nat) →
    List (Address × Nat)
  | m :: ms, b :: q :: rs, acc =>
    balancesGo ms rs (mapSet (mapSet acc m.base.address b) m.quote.address q)
  | _, _, acc => acc

/-- getBalances: the batched balance query issues, for each market in order, a
base then a quote balanceOf call, and folds the positional results into a map
from token address to balance.  The result list is the multicall's answer,
assumed (as in the source) to hold exactly two entries per market. -/
def getBalances (markets : List Market) (results : List Nat) :
    List (Address × Nat) :=
  balancesGo markets results []

/-- A market mentions an address when it is its base or quote address. -/
def mentions (m : Market) (a : Address) : Prop :=
  m.base.address = a ∨ m.quote.address = a

instance (m : Market) (a : Address) : Decidable (mentions m a) := by
  unfold mentions
  infer_instance

/-! Helper lemmas. -/

theorem listMax_eq_none {l : List ℤ} : listMax l = none ↔ l = [] := by
  cases l with
  | nil => simp [listMax]
  | cons a l =>
    simp only [listMax]
    cases listMax l <;> simp

theorem listMax_mem : ∀ {l : List ℤ} {t : ℤ}, listMax l = some t → t ∈ l := by
  intro l
  induction l with
  | nil => intro t h; simp [listMax] at h
  | cons a l ih =>
    intro t h
    simp only [listMax] at h
    cases hl : listMax l with
    | none =>
      rw [hl] at h
      injection h with h
      subst h
      exact List.mem_cons_self _ _
    | some u =>
      rw [hl] at h
      injection h with h
      rcases max_choice a u with hm | hm <;> rw [hm] at h <;> subst h
      · exact List.mem_cons_self _ _
      · exact List.mem_cons_of_mem _ (ih hl)

theorem listMax_ge : ∀ {l : List ℤ} {a t : ℤ}, a ∈ l → listMax l = some t → a ≤ t := by
  intro l
  induction l with
  | nil => intro a t ha; simp at ha
  | cons b l ih =>
    intro a t ha h
    simp only [listMax] at h
    cases hl : listMax l with
    | none =>
      rw [hl] at h
      injection h with h
      subst h
      rw [listMax_eq_none.mp hl] at ha
      simp at ha
      omega
    | some u =>
      rw [hl] at h
      injection h with h
      subst h
      rcases List.mem_cons.mp ha with rfl | hmem
      · exact le_max_left _ _
      · exact le_trans (ih hmem hl) (le_max_right _ _)

theorem tickFromPrice_ok {maxT s : ℕ} {p : ℚ} {t : ℤ}
    (h : tickFromPrice maxT s p = .ok t) :
    t ∈ gridTicks maxT s ∧ gridPrice t ≤ p := by
  unfold tickFromPrice at h
  by_cases hp : p ≤ 0
  · rw [if_pos hp] at h
    exact absurd h (by simp)
  · rw [if_neg hp] at h
    cases hl : listMax ((gridTicks maxT s).filter fun u => decide (gridPrice u ≤ p)) with
    | none => rw [hl] at h; exact absurd h (by simp)
    | some u =>
      rw [hl] at h
      injection h with h
      subst h
      have hmem := listMax_mem hl
      rw [List.mem_filter] at hmem
      exact ⟨hmem.1, of_decide_eq_true hmem.2⟩

theorem tickFromPrice_max {maxT s : ℕ} {p : ℚ} {t : ℤ}
    (h : tickFromPrice maxT s p = .ok t) :
    ∀ u ∈ gridTicks maxT s, gridPrice u ≤ p → u ≤ t := by
  intro u hu hup
  unfold tickFromPrice at h
  by_cases hp : p ≤ 0
  · rw [if_pos hp] at h
    exact absurd h (by simp)
  · rw [if_neg hp] at h
    cases hl : listMax ((gridTicks maxT s).filter fun v => decide (gridPrice v ≤ p)) with
    | none => rw [hl] at h; exact absurd h (by simp)
    | some v =>
      rw [hl] at h
      injection h with h
      subst h
      exact listMax_ge (List.mem_filter.mpr ⟨hu, decide_eq_true hup⟩) hl

theorem tickFromPrice_nonpos {maxT s : ℕ} {p : ℚ} (hp : p ≤ 0) :
    tickFromPrice maxT s p = .error .invalidPrice := by
  unfold tickFromPrice
  rw [if_pos hp]

theorem gridTicks_natAbs_le {maxT s : ℕ} {t : ℤ} (h : t ∈ gridTicks maxT s) :
    t.natAbs ≤ maxT := by
  simp only [gridTicks, List.mem_map, List.mem_range] at h
  obtain ⟨i, hi, rfl⟩ := h
  rw [Int.natAbs_mul]
  have h2 : ((i : ℤ) - (maxT / s : ℕ)).natAbs ≤ maxT / s := by omega
  calc ((i : ℤ) - (maxT / s : ℕ)).natAbs * (s : ℤ).natAbs
      ≤ (maxT / s) * s := by
        simp only [Int.natAbs_ofNat]
        exact Nat.mul_le_mul_right _ h2
    _ ≤ maxT := Nat.div_mul_le_self _ _

theorem powNat_eq (b : ℕ) : ∀ n : ℕ, powNat b n = b ^ n := by
  intro n
  induction n with
  | zero => simp [powNat]
  | succ n ih => rw [powNat, ih, pow_succ, mul_comm]

theorem gridPrice_eq_zpow (t : ℤ) : gridPrice t = tickBase ^ t := by
  cases t with
  | ofNat n =>
    show mkRat (powNat 10001 n) (powNat 10000 n) = _
    rw [powNat_eq, powNat_eq, Rat.mkRat_eq_div, Int.ofNat_eq_natCast, zpow_natCast,
      tickBase, div_pow]
    push_cast
    ring
  | negSucc n =>
    show mkRat (powNat 10000 (n + 1)) (powNat 10001 (n + 1)) = _
    rw [powNat_eq, powNat_eq, Rat.mkRat_eq_div, zpow_negSucc, tickBase, div_pow,
      inv_div]
    push_cast
    ring

theorem humanPriceToRawPrice_eq (p : ℚ) (m : Market) :
    humanPriceToRawPrice p m
      = p * (10 : ℚ) ^ ((m.quote.decimals : ℤ) - (m.base.decimals : ℤ)) := by
  unfold humanPriceToRawPrice
  by_cases h : m.base.decimals ≤ m.quote.decimals
  · rw [if_pos h, powNat_eq, Rat.mkRat_eq_div]
    have hz : (m.quote.decimals : ℤ) - (m.base.decimals : ℤ)
        = ((m.quote.decimals - m.base.decimals : ℕ) : ℤ) := by omega
    rw [hz, zpow_natCast]
    conv_rhs => rw [← Rat.num_div_den p]
    push_cast
    ring
  · rw [if_neg h, powNat_eq, Rat.mkRat_eq_div]
    have hz : (m.quote.decimals : ℤ) - (m.base.decimals : ℤ)
        = -((m.base.decimals - m.quote.decimals : ℕ) : ℤ) := by omega
    rw [hz, zpow_neg, zpow_natCast]
    conv_rhs => rw [← Rat.num_div_den p]
    have hden : ((p.den : ℚ)) ≠ 0 := by
      exact_mod_cast p.den_nz
    have hpow : ((10 : ℚ)) ^ (m.base.decimals - m.quote.decimals) ≠ 0 :=
      pow_ne_zero _ (by norm_num)
    push_cast
    field_simp

theorem humanPriceToRawPrice_neg {p : ℚ} (m : Market) (hp : p < 0) :
    humanPriceToRawPrice p m < 0 := by
  rw [humanPriceToRawPrice_eq]
  exact mul_neg_of_neg_of_pos hp (zpow_pos (by norm_num) _)

theorem humanPriceToRawPrice_nonpos {p : ℚ} (m : Market) (hp : p ≤ 0) :
    humanPriceToRawPrice p m ≤ 0 := by
  rcases lt_or_eq_of_le hp with h | h
  · exact le_of_lt (humanPriceToRawPrice_neg m h)
  · rw [humanPriceToRawPrice_eq, h, zero_mul]

theorem approvalPhase_actions {cs as tok : Address} {st : TxStatus} {c : Chain}
    {a : Act} (h : a ∈ (approvalPhase cs as tok st c).2) :
    a = .readAllowance tok cs ∨ a = .approveTx tok as maxUint256 := by
  unfold approvalPhase at h
  by_cases hb : c.allowance tok cs < maxUint128
  · rw [if_pos hb] at h
    cases st <;> simp only [List.mem_cons, List.mem_singleton] at h <;> tauto
  · rw [if_neg hb] at h
    simp only [List.mem_singleton] at h
    tauto

theorem marketGate_actions {env : Env} {props : MarketOrderProps} {a : Act}
    (h : a ∈ (marketGate env props).2) :
    a = .readAllowance (tokenFor props.bs props.market) mgvAddr
      ∨ a = .approveTx (tokenFor props.bs props.market) mgvAddr maxUint256 := by
  unfold marketGate at h
  by_cases hs : props.skipApprovalCheck
  · rw [if_pos hs] at h
    simp at h
  · rw [if_neg hs] at h
    exact approvalPhase_actions h

theorem marketGate_no_orderTx {env : Env} {props : MarketOrderProps} {t : ℤ} :
    Act.orderTx t ∉ (marketGate env props).2 := by
  intro h
  rcases marketGate_actions h with h1 | h1 <;> simp at h1

theorem marketGate_no_decode {env : Env} {props : MarketOrderProps} :
    Act.decodeInvoked ∉ (marketGate env props).2 := by
  intro h
  rcases marketGate_actions h with h1 | h1 <;> simp at h1

theorem limitPre_actions {env : Env} {props : LimitOrderProps} {a : Act}
    (h : a ∈ limitPre env props) :
    a = .readUserRouter ∨ a = .readBook
      ∨ a = .readAllowance (tokenFor props.bs props.market) (limitRouter env props).1
      ∨ a = .approveTx (tokenFor props.bs props.market) mgvAddr maxUint256 := by
  unfold limitPre at h
  rcases List.mem_append.mp h with h1 | h1
  · rcases List.mem_append.mp h1 with h2 | h2
    · unfold limitRouter at h2
      rcases hu : props.userRouter with _ | r <;> rw [hu] at h2 <;> simp at h2
      tauto
    · rcases hb : props.book with _ | b <;> rw [hb] at h2 <;> simp at h2
      tauto
  · unfold limitGate at h1
    by_cases hs : props.skipApprovalCheck
    · rw [if_pos hs] at h1
      simp at h1
    · rw [if_neg hs] at h1
      rcases approvalPhase_actions h1 with h2 | h2 <;> tauto

theorem limitPre_no_orderTx {env : Env} {props : LimitOrderProps} {t : ℤ} :
    Act.orderTx t ∉ limitPre env props := by
  intro h
  rcases limitPre_actions h with h1 | h1 | h1 | h1 <;> simp at h1

theorem limitPre_no_decode {env : Env} {props : LimitOrderProps} :
    Act.decodeInvoked ∉ limitPre env props := by
  intro h
  rcases limitPre_actions h with h1 | h1 | h1 | h1 <;> simp at h1

theorem marketOrder_inv {maxT : ℕ} {env : Env} {props : MarketOrderProps} {t : ℤ}
    (h : Act.orderTx t ∈ (marketOrder maxT env props).2) :
    marketTick maxT props.market props.maxPrice props.bs = .ok t
    ∧ (env.orderReceipt.status = .reverted →
        (marketOrder maxT env props).1 = .error .submissionFailed
        ∧ Act.decodeInvoked ∉ (marketOrder maxT env props).2)
    ∧ (env.orderReceipt.status = .success →
        (marketOrder maxT env props).1
            = .ok (env.orderReceipt, env.decodeMarket env.orderReceipt)
        ∧ Act.decodeInvoked ∈ (marketOrder maxT env props).2) := by
  unfold marketOrder at h ⊢
  cases h1 : marketTick maxT props.market props.maxPrice props.bs with
  | error e => rw [h1] at h; dsimp only at h; simp at h
  | ok mt =>
    rw [h1] at h
    dsimp only at h ⊢
    cases h2 : (marketGate env props).1 with
    | error e =>
      rw [h2] at h
      dsimp only at h ⊢
      exact absurd h marketGate_no_orderTx
    | ok c =>
      rw [h2] at h
      dsimp only at h ⊢
      cases h3 : env.orderReceipt.status with
      | reverted =>
        rw [h3] at h
        dsimp only at h ⊢
        have ht : t = mt := by
          rcases List.mem_append.mp h with h4 | h4
          · exact absurd h4 marketGate_no_orderTx
          · simp at h4
            omega
        subst ht
        refine ⟨rfl, fun _ => ⟨rfl, ?_⟩, fun hs => absurd hs (by simp)⟩
        intro hd
        rcases List.mem_append.mp hd with h4 | h4
        · exact absurd h4 marketGate_no_decode
        · simp at h4
      | success =>
        rw [h3] at h
        dsimp only at h ⊢
        have ht : t = mt := by
          rcases List.mem_append.mp h with h4 | h4
          · exact absurd h4 marketGate_no_orderTx
          · simp at h4
            omega
        subst ht
        refine ⟨rfl, fun hr => absurd hr (by simp), fun _ => ⟨rfl, ?_⟩⟩
        exact List.mem_append.mpr (Or.inr (by simp))

theorem limitOrder_inv {maxT : ℕ} {env : Env} {props : LimitOrderProps} {t : ℤ}
    (h : Act.orderTx t ∈ (limitOrder maxT env props).2) :
    limitTick maxT props.market props.price props.bs = .ok t
    ∧ (env.orderReceipt.status = .reverted →
        (limitOrder maxT env props).1 = .error .submissionFailed
        ∧ Act.decodeInvoked ∉ (limitOrder maxT env props).2)
    ∧ (env.orderReceipt.status = .success →
        (limitOrder maxT env props).1
            = .ok (env.orderReceipt, env.decodeLimit env.orderReceipt)
        ∧ Act.decodeInvoked ∈ (limitOrder maxT env props).2) := by
  unfold limitOrder at h ⊢
  cases h2 : (limitGate env props).1 with
  | error e =>
    rw [h2] at h
    dsimp only at h
    exact absurd h limitPre_no_orderTx
  | ok c =>
    rw [h2] at h
    dsimp only at h ⊢
    cases h1 : limitTick maxT props.market props.price props.bs with
    | error e =>
      rw [h1] at h
      dsimp only at h
      exact absurd h limitPre_no_orderTx
    | ok tk =>
      rw [h1] at h
      dsimp only at h ⊢
      cases h3 : env.orderReceipt.status with
      | reverted =>
        rw [h3] at h
        dsimp only at h ⊢
        have ht : t = tk := by
          rcases List.mem_append.mp h with h4 | h4
          · exact absurd h4 limitPre_no_orderTx
          · simp at h4
            omega
        subst ht
        refine ⟨rfl, fun _ => ⟨rfl, ?_⟩, fun hs => absurd hs (by simp)⟩
        intro hd
        rcases List.mem_append.mp hd with h4 | h4
        · exact absurd h4 limitPre_no_decode
        · simp at h4
      | success =>
        rw [h3] at h
        dsimp only at h ⊢
        have ht : t = tk := by
          rcases List.mem_append.mp h with h4 | h4
          · exact absurd h4 limitPre_no_orderTx
          · simp at h4
            omega
        subst ht
        refine ⟨rfl, fun hr => absurd hr (by simp), fun _ => ⟨rfl, ?_⟩⟩
        exact List.mem_append.mpr (Or.inr (by simp))

theorem marketTick_bound {maxT : ℕ} {m : Market} {mp : Option ℚ} {bs : BS} {t : ℤ}
    (h : marketTick maxT m mp bs = .ok t) : t.natAbs ≤ maxT := by
  unfold marketTick at h
  cases mp with
  | none =>
    dsimp only at h
    injection h with h
    subst h
    simp
  | some p =>
    dsimp only at h
    by_cases hp : p = 0
    · rw [if_pos hp] at h
      injection h with h
      subst h
      simp
    · rw [if_neg hp] at h
      cases htf : tickFromPrice maxT m.tickSpacing (humanPriceToRawPrice p m) with
      | error e => rw [htf] at h; dsimp only at h; exact absurd h (by simp)
      | ok tk =>
        rw [htf] at h
        dsimp only at h
        have hb := gridTicks_natAbs_le (tickFromPrice_ok htf).1
        cases bs <;> injection h with h <;> subst h
        · rw [Int.natAbs_neg]
          exact hb
        · exact hb

theorem limitTick_bound {maxT : ℕ} {m : Market} {p : ℚ} {bs : BS} {t : ℤ}
    (h : limitTick maxT m p bs = .ok t) : t.natAbs ≤ maxT := by
  unfold limitTick at h
  cases htf : tickFromPrice maxT m.tickSpacing (humanPriceToRawPrice p m) with
  | error e => rw [htf] at h; dsimp only at h; exact absurd h (by simp)
  | ok tk =>
    rw [htf] at h
    dsimp only at h
    have hb := gridTicks_natAbs_le (tickFromPrice_ok htf).1
    cases bs <;> injection h with h <;> subst h
    · rw [Int.natAbs_neg]
      exact hb
    · exact hb

theorem marketTick_neg {maxT : ℕ} {m : Market} {p : ℚ} {bs : BS} (hp : p < 0) :
    marketTick maxT m (some p) bs = .error .invalidPrice := by
  unfold marketTick
  dsimp only
  rw [if_neg hp.ne, tickFromPrice_nonpos (humanPriceToRawPrice_nonpos m hp.le)]

theorem limitTick_nonpos {maxT : ℕ} {m : Market} {p : ℚ} {bs : BS} (hp : p ≤ 0) :
    limitTick maxT m p bs = .error .invalidPrice := by
  unfold limitTick
  rw [tickFromPrice_nonpos (humanPriceToRawPrice_nonpos m hp)]

theorem limitGate_ok {env : Env} {props : LimitOrderProps}
    (h : env.approveStatus = .success) :
    ∃ c, (limitGate env props).1 = .ok c := by
  unfold limitGate
  by_cases hs : props.skipApprovalCheck
  · rw [if_pos hs]
    exact ⟨env.chain, rfl⟩
  · rw [if_neg hs]
    unfold approvalPhase
    by_cases hb : env.chain.allowance (tokenFor props.bs props.market)
        (limitRouter env props).1 < maxUint128
    · rw [if_pos hb, h]
      exact ⟨_, rfl⟩
    · rw [if_neg hb]
      exact ⟨env.chain, rfl⟩

/-! Map lemmas for the balance query. -/

theorem mapGet_cons (e : Address × Nat) (l : List (Address × Nat)) (k : Address) :
    mapGet (e :: l) k = if e.1 = k then some e.2 else mapGet l k := by
  unfold mapGet
  by_cases he : e.1 = k
  · rw [if_pos he, List.find?_cons_of_pos _ (by simp [he])]
    rfl
  · rw [if_neg he, List.find?_cons_of_neg _ (by simp [he])]

theorem mapGet_append (l₁ l₂ : List (Address × Nat)) (k : Address) :
    mapGet (l₁ ++ l₂) k
      = match mapGet l₁ k with
        | some v => some v
        | none => mapGet l₂ k := by
  induction l₁ with
  | nil => simp [mapGet]
  | cons e l ih =>
    rw [List.cons_append, mapGet_cons, mapGet_cons]
    by_cases he : e.1 = k
    · rw [if_pos he, if_pos he]
    · rw [if_neg he, if_neg he, ih]

theorem mapGet_isSome_iff_any (l : List (Address × Nat)) (k : Address) :
    (mapGet l k).isSome = l.any (fun e => e.1 == k) := by
  induction l with
  | nil => rfl
  | cons e l ih =>
    rw [mapGet_cons, List.any_cons]
    by_cases he : e.1 = k
    · simp [he]
    · have hbe : (e.1 == k) = false := by simp [he]
      rw [if_neg he, ih, hbe, Bool.false_or]

theorem mapGet_update_ne {k k' : Address} {v : Nat} (h : k' ≠ k) :
    ∀ l : List (Address × Nat),
      mapGet (l.map (fun e => if e.1 = k then (k, v) else e)) k' = mapGet l k' := by
  intro l
  induction l with
  | nil => rfl
  | cons e l ih =>
    rw [List.map_cons]
    by_cases he : e.1 = k
    · rw [if_pos he, mapGet_cons, mapGet_cons,
        if_neg (show ¬((k, v) : Address × Nat).1 = k' from fun hc => h hc.symm),
        if_neg (show ¬e.1 = k' from fun hc => h (he.symm.trans hc).symm), ih]
    · rw [if_neg he, mapGet_cons, mapGet_cons, ih]

theorem mapGet_update_self {k : Address} {v : Nat} :
    ∀ l : List (Address × Nat), (mapGet l k).isSome →
      mapGet (l.map (fun e => if e.1 = k then (k, v) else e)) k = some v := by
  intro l
  induction l with
  | nil => intro h; simp [mapGet] at h
  | cons e l ih =>
    intro h
    rw [List.map_cons, mapGet_cons]
    by_cases he : e.1 = k
    · rw [if_pos he]
      simp
    · rw [if_neg he]
      rw [mapGet_cons, if_neg he] at h
      rw [if_neg he, ih h]

theorem mapGet_mapSet (l : List (Address × Nat)) (k : Address) (v : Nat)
    (k' : Address) :
    mapGet (mapSet l k v) k' = if k' = k then some v else mapGet l k' := by
  unfold mapSet
  by_cases ha : l.any (fun e => e.1 == k)
  · rw [if_pos ha]
    by_cases hk : k' = k
    · subst hk
      rw [if_pos rfl]
      exact mapGet_update_self l (by rw [mapGet_isSome_iff_any, ha])
    · rw [if_neg hk]
      exact mapGet_update_ne hk l
  · rw [if_neg ha, mapGet_append]
    have hfalse : l.any (fun e => e.1 == k) = false := by
      revert ha
      cases l.any (fun e => e.1 == k) <;> simp
    have hnone : mapGet l k = none := by
      have h2 := mapGet_isSome_iff_any l k
      rw [hfalse] at h2
      cases hml : mapGet l k with
      | none => rfl
      | some w => rw [hml] at h2; simp at h2
    by_cases hk : k' = k
    · subst hk
      rw [hnone, if_pos rfl, mapGet_cons]
      simp
    · rw [if_neg hk]
      cases hml : mapGet l k' with
      | some w => rfl
      | none =>
        rw [mapGet_cons, if_neg (show ¬(k = k') from fun hc => hk hc.symm)]
        rfl
theorem balancesGo_skip {a : Address} :
    ∀ (ms : List Market) (rs : List Nat) (acc : List (Address × Nat)),
      (∀ m ∈ ms, ¬ mentions m a) →
      mapGet (balancesGo ms rs acc) a = mapGet acc a := by
  intro ms
  induction ms with
  | nil =>
    intro rs acc h
    simp [balancesGo]
  | cons m ms ih =>
    intro rs acc h
    match rs with
    | [] => simp [balancesGo]
    | [b] => simp [balancesGo]
    | b :: q :: rs =>
      rw [balancesGo, ih _ _ (fun m' hm' => h m' (List.mem_cons_of_mem _ hm'))]
      have hm := h m (List.mem_cons_self _ _)
      unfold mentions at hm
      rw [mapGet_mapSet, if_neg (fun hc => hm (Or.inr hc.symm)),
        mapGet_mapSet, if_neg (fun hc => hm (Or.inl hc.symm))]

theorem balancesGo_keys {a : Address} :
    ∀ (ms : List Market) (rs : List Nat) (acc : List (Address × Nat)),
      (mapGet (balancesGo ms rs acc) a).isSome →
      (∃ m ∈ ms, mentions m a) ∨ (mapGet acc a).isSome := by
  intro ms
  induction ms with
  | nil =>
    intro rs acc h
    simp only [balancesGo] at h
    exact Or.inr h
  | cons m ms ih =>
    intro rs acc h
    match rs with
    | [] => simp only [balancesGo] at h; exact Or.inr h
    | [b] => simp only [balancesGo] at h; exact Or.inr h
    | b :: q :: rs =>
      rw [balancesGo] at h
      rcases ih _ _ h with h1 | h1
      · obtain ⟨m', hm', hmen⟩ := h1
        exact Or.inl ⟨m', List.mem_cons_of_mem _ hm', hmen⟩
      · rw [mapGet_mapSet] at h1
        by_cases hq : a = m.quote.address
        · exact Or.inl ⟨m, List.mem_cons_self _ _, Or.inr hq.symm⟩
        · rw [if_neg hq, mapGet_mapSet] at h1
          by_cases hb : a = m.base.address
          · exact Or.inl ⟨m, List.mem_cons_self _ _, Or.inl hb.symm⟩
          · rw [if_neg hb] at h1
            exact Or.inr h1

theorem balancesGo_get {a : Address} :
    ∀ (i : ℕ) (ms : List Market) (rs : List Nat) (acc : List (Address × Nat))
      (m : Market),
      rs.length = 2 * ms.length →
      ms[i]? = some m →
      (∀ j, i < j → ∀ m', ms[j]? = some m' → ¬ mentions m' a) →
      ((a = m.quote.address →
          mapGet (balancesGo ms rs acc) a = rs[2 * i + 1]?)
        ∧ (a = m.base.address → m.quote.address ≠ a →
            mapGet (balancesGo ms rs acc) a = rs[2 * i]?)) := by
  intro i
  induction i with
  | zero =>
    intro ms rs acc m hlen hm hlater
    cases ms with
    | nil => simp at hm
    | cons m0 ms =>
      rw [List.getElem?_cons_zero] at hm
      injection hm with hm
      subst hm
      match rs, hlen with
      | b :: q :: rs, hlen =>
        rw [balancesGo]
        have hskip : ∀ m' ∈ ms, ¬ mentions m' a := by
          intro m' hm'
          obtain ⟨j, hj⟩ := List.mem_iff_getElem?.mp hm'
          exact hlater (j + 1) (by omega) m' (by rw [List.getElem?_cons_succ]; exact hj)
        rw [balancesGo_skip ms rs _ hskip]
        constructor
        · intro ha
          rw [mapGet_mapSet, if_pos ha]
          simp
        · intro hb hq
          rw [mapGet_mapSet, if_neg (fun hc => hq hc.symm), mapGet_mapSet,
            if_pos hb]
          simp
  | succ i ih =>
    intro ms rs acc m hlen hm hlater
    cases ms with
    | nil => simp at hm
    | cons m0 ms =>
      rw [List.getElem?_cons_succ] at hm
      match rs, hlen with
      | b :: q :: rs, hlen =>
        rw [balancesGo]
        have hlen2 : rs.length = 2 * ms.length := by
          simp only [List.length_cons] at hlen
          omega
        have hlater2 : ∀ j, i < j → ∀ m', ms[j]? = some m' → ¬ mentions m' a := by
          intro j hj m' hm'
          exact hlater (j + 1) (by omega) m'
            (by rw [List.getElem?_cons_succ]; exact hm')
        have hrec := ih ms rs
          (mapSet (mapSet acc m0.base.address b) m0.quote.address q) m hlen2 hm
          hlater2
        constructor
        · intro ha
          rw [show 2 * (i + 1) + 1 = 2 * i + 1 + 1 + 1 by ring,
            List.getElem?_cons_succ, List.getElem?_cons_succ]
          exact hrec.1 ha
        · intro hb hq
          rw [show 2 * (i + 1) = 2 * i + 1 + 1 by ring,
            List.getElem?_cons_succ, List.getElem?_cons_succ]
          exact hrec.2 hb hq


/-! Concrete fixtures used by witnesses and counterexamples. -/

/-- A concrete market: base token at address 3 with 18 decimals, quote token
at address 4 with 6 decimals, tick spacing 1. -/
def mkt18 : Market := ⟨⟨3, 18⟩, ⟨4, 6⟩, 1⟩

/-- A concrete market with equal decimal precision, so the raw price equals
the human price. -/
def mkt0 : Market := ⟨⟨3, 0⟩, ⟨4, 0⟩, 1⟩

/-- A concrete environment: empty allowance ledger, successful approval
transactions, successful empty-log order receipt, user router at address 1. -/
def env0 : Env :=
  { chain := ⟨fun _ _ => 0⟩
    approveStatus := .success
    orderReceipt := ⟨.success, []⟩
    userRouter := 1
    book := ⟨0, 0, 0⟩
    decodeMarket := fun _ => ⟨0, 0, 0, 0⟩
    decodeLimit := fun _ => ⟨0, 0, 0, 0, none⟩ }

/-- The concrete environment with a reverted order receipt. -/
def envRev : Env := { env0 with orderReceipt := ⟨.reverted, []⟩ }

/-- Market-order parameters with no price bound and the approval check on. -/
def propsC4 : MarketOrderProps := ⟨mkt18, .buy, 5, true, none, false⟩

/-- Limit-order parameters with a negative price. -/
def plNeg : LimitOrderProps :=
  ⟨mkt18, .sell, 5, false, mkRat (-1) 1, .GTC, false, none, none⟩

/-- Market-order parameters with a negative price bound. -/
def pmNeg : MarketOrderProps := ⟨mkt18, .buy, 5, true, some (mkRat (-2) 1), false⟩

/-! The claims. -/

/-- C1: the claim fails on the code.  limitOrder's approval-check phase reads
the allowance of the user router but grants the approval to the Mangrove core
address, so when the user router is a distinct address the router's allowance
stays below the safety threshold and a second run of the phase issues a second
authorization transaction.  Evaluated at user router 1, token 2, an allowance
ledger at constant 0 and successful approvals: the first run emits an approval
transaction and updates the ledger, the allowance the second run observes is
still 0, and the second run emits another approval transaction. -/
theorem C1_limit_gate_not_idempotent :
    (approvalPhase 1 mgvAddr 2 .success ⟨fun _ _ => 0⟩).2
        = [.readAllowance 2 1, .approveTx 2 mgvAddr maxUint256]
  ∧ (approvalPhase 1 mgvAddr 2 .success ⟨fun _ _ => 0⟩).1
        = .ok (Chain.approve ⟨fun _ _ => 0⟩ 2 mgvAddr maxUint256)
  ∧ (Chain.approve ⟨fun _ _ => 0⟩ 2 mgvAddr maxUint256).allowance 2 1 = 0
  ∧ (approvalPhase 1 mgvAddr 2 .success
        (Chain.approve ⟨fun _ _ => 0⟩ 2 mgvAddr maxUint256)).2
        = [.readAllowance 2 1, .approveTx 2 mgvAddr maxUint256] :=
  ⟨by decide, rfl, by decide, by decide⟩

/-- C2: for every market and positive human price, the tick computed for a
buy intent is the negation of the tick computed for a sell intent at the same
nominal price, in both the market-order and the limit-order price-to-tick
conversion. -/
theorem C2_buy_tick_negates_sell (maxT : ℕ) (m : Market) (p : ℚ) (hp : 0 < p) :
    marketTick maxT m (some p) .buy
        = (marketTick maxT m (some p) .sell).map Neg.neg
    ∧ limitTick maxT m p .buy = (limitTick maxT m p .sell).map Neg.neg := by
  constructor
  · unfold marketTick
    dsimp only
    rw [if_neg hp.ne', if_neg hp.ne']
    cases tickFromPrice maxT m.tickSpacing (humanPriceToRawPrice p m) <;> rfl
  · unfold limitTick
    cases tickFromPrice maxT m.tickSpacing (humanPriceToRawPrice p m) <;> rfl

theorem C2_buy_tick_negates_sell_witness :
    marketTick 2 mkt0 (some 1) .buy
        = (marketTick 2 mkt0 (some 1) .sell).map Neg.neg
    ∧ limitTick 2 mkt0 1 .buy = (limitTick 2 mkt0 1 .sell).map Neg.neg :=
  C2_buy_tick_negates_sell 2 mkt0 1 (by norm_num)

/-- C3: whenever the submission channel returns a reverted receipt, each of
the three orchestrators fails with the submission-failure error without ever
invoking its result decoder; with a non-reverted receipt the decoder is
invoked and the decoded result returned. -/
theorem C3_reverted_never_decodes (maxT : ℕ) (env : Env) (pm : MarketOrderProps)
    (pl : LimitOrderProps) (pc : CancelProps) :
    (env.orderReceipt.status = .reverted →
      ((∃ t, Act.orderTx t ∈ (marketOrder maxT env pm).2) →
          (marketOrder maxT env pm).1 = .error .submissionFailed
          ∧ Act.decodeInvoked ∉ (marketOrder maxT env pm).2)
      ∧ ((∃ t, Act.orderTx t ∈ (limitOrder maxT env pl).2) →
          (limitOrder maxT env pl).1 = .error .submissionFailed
          ∧ Act.decodeInvoked ∉ (limitOrder maxT env pl).2)
      ∧ (cancelLimitOrder env pc).1 = .error .submissionFailed
      ∧ Act.decodeInvoked ∉ (cancelLimitOrder env pc).2)
    ∧ (env.orderReceipt.status = .success →
      ((∃ t, Act.orderTx t ∈ (marketOrder maxT env pm).2) →
          (marketOrder maxT env pm).1
              = .ok (env.orderReceipt, env.decodeMarket env.orderReceipt)
          ∧ Act.decodeInvoked ∈ (marketOrder maxT env pm).2)
      ∧ ((∃ t, Act.orderTx t ∈ (limitOrder maxT env pl).2) →
          (limitOrder maxT env pl).1
              = .ok (env.orderReceipt, env.decodeLimit env.orderReceipt)
          ∧ Act.decodeInvoked ∈ (limitOrder maxT env pl).2)
      ∧ (cancelLimitOrder env pc).1
          = .ok (env.orderReceipt,
              removeOrderResultSuccess env.orderReceipt pc.offerId)
      ∧ Act.decodeInvoked ∈ (cancelLimitOrder env pc).2) := by
  constructor
  · intro hr
    refine ⟨fun ⟨t, ht⟩ => (marketOrder_inv ht).2.1 hr,
            fun ⟨t, ht⟩ => (limitOrder_inv ht).2.1 hr, ?_, ?_⟩
    · unfold cancelLimitOrder
      rw [hr]
    · unfold cancelLimitOrder
      rw [hr]
      simp
  · intro hs
    refine ⟨fun ⟨t, ht⟩ => (marketOrder_inv ht).2.2 hs,
            fun ⟨t, ht⟩ => (limitOrder_inv ht).2.2 hs, ?_, ?_⟩
    · unfold cancelLimitOrder
      rw [hs]
    · unfold cancelLimitOrder
      rw [hs]
      simp

theorem C3_reverted_never_decodes_witness :
    (cancelLimitOrder envRev ⟨mkt0, .buy, 9, true⟩).1 = .error .submissionFailed
    ∧ Act.decodeInvoked ∉ (cancelLimitOrder envRev ⟨mkt0, .buy, 9, true⟩).2 :=
  ⟨(((C3_reverted_never_decodes MAX_TICK envRev
        ⟨mkt0, .buy, 5, true, none, true⟩
        ⟨mkt0, .buy, 5, true, 1, .GTC, true, none, none⟩
        ⟨mkt0, .buy, 9, true⟩).1 rfl).2.2).1,
   (((C3_reverted_never_decodes MAX_TICK envRev
        ⟨mkt0, .buy, 5, true, none, true⟩
        ⟨mkt0, .buy, 5, true, 1, .GTC, true, none, none⟩
        ⟨mkt0, .buy, 9, true⟩).1 rfl).2.2).2⟩

/-- C4: marketOrder's authorization gate reads the allowance granted to the
Mangrove core address on the token being given; when it is below the
maxUint128 threshold it issues exactly one approval transaction, for
maxUint256, to that same address, before the order transaction is built; at
or above the threshold it issues no approval transaction. -/
theorem C4_market_gate_behaviour (maxT : ℕ) (env : Env)
    (props : MarketOrderProps) (mt : ℤ) (h0 : props.skipApprovalCheck = false)
    (h1 : marketTick maxT props.market props.maxPrice props.bs = .ok mt) :
    (env.chain.allowance (tokenFor props.bs props.market) mgvAddr < maxUint128 →
      ∃ rest, (marketOrder maxT env props).2
          = .readAllowance (tokenFor props.bs props.market) mgvAddr
            :: .approveTx (tokenFor props.bs props.market) mgvAddr maxUint256
            :: rest
        ∧ ∀ t s n, Act.approveTx t s n ∉ rest)
    ∧ (¬ env.chain.allowance (tokenFor props.bs props.market) mgvAddr
          < maxUint128 →
        ∀ t s n, Act.approveTx t s n ∉ (marketOrder maxT env props).2) := by
  unfold marketOrder
  rw [h1]
  dsimp only
  unfold marketGate
  rw [h0, if_neg Bool.false_ne_true]
  unfold approvalPhase
  constructor
  · intro hlt
    rw [if_pos hlt]
    cases hap : env.approveStatus with
    | reverted =>
      dsimp only
      exact ⟨[], rfl, by simp⟩
    | success =>
      dsimp only
      cases hrs : env.orderReceipt.status with
      | reverted =>
        dsimp only
        exact ⟨[.orderTx mt], rfl, by simp⟩
      | success =>
        dsimp only
        exact ⟨[.orderTx mt, .decodeInvoked], rfl, by simp⟩
  · intro hge
    rw [if_neg hge]
    dsimp only
    cases hrs : env.orderReceipt.status with
    | reverted =>
      dsimp only
      intro t s n
      simp
    | success =>
      dsimp only
      intro t s n
      simp

theorem C4_market_gate_behaviour_witness :
    ∃ rest, (marketOrder MAX_TICK env0 propsC4).2
        = .readAllowance (tokenFor propsC4.bs propsC4.market) mgvAddr
          :: .approveTx (tokenFor propsC4.bs propsC4.market) mgvAddr maxUint256
          :: rest
      ∧ ∀ t s n, Act.approveTx t s n ∉ rest :=
  (C4_market_gate_behaviour MAX_TICK env0 propsC4 (MAX_TICK : ℤ) rfl rfl).1
    (by decide)

/-- C5 counterexample: the claim fails on the code at two explicit inputs.
First, marketOrder's price guard is a JavaScript falsiness test, so a zero
price bound is treated as an absent bound and yields the sentinel tick with no
error instead of failing.  Second, limitOrder runs its router read, book read
and approval phase before converting the price, so with a negative limit price
the invalid-price failure is raised only after network calls, including a
state-changing approval transaction, have been made. -/
theorem C5_cex :
    marketTick MAX_TICK mkt18 (some 0) .buy = .ok (MAX_TICK : ℤ)
    ∧ limitOrder MAX_TICK env0 plNeg
        = (.error .invalidPrice,
           [.readUserRouter, .readBook, .readAllowance 3 1,
            .approveTx 3 mgvAddr maxUint256]) :=
  ⟨rfl, by decide⟩

/-- C5 amended: a negative market-order price bound fails with the
invalid-price error before any chain action; a nonpositive limit price fails
with the invalid-price error (when the approval transaction does not revert
first) and never reaches the submission channel, though the gate's chain
actions have already run; a zero market-order bound is treated as an absent
bound by the falsiness guard and yields the sentinel tick without an error. -/
theorem C5_nonpositive_price_behaviour (maxT : ℕ) (env : Env)
    (pm : MarketOrderProps) (pl : LimitOrderProps) :
    (∀ p : ℚ, pm.maxPrice = some p → p < 0 →
      marketOrder maxT env pm = (.error .invalidPrice, []))
    ∧ (env.approveStatus = .success → pl.price ≤ 0 →
        (limitOrder maxT env pl).1 = .error .invalidPrice
        ∧ ∀ t : ℤ, Act.orderTx t ∉ (limitOrder maxT env pl).2)
    ∧ (pm.maxPrice = some 0 →
        marketTick maxT pm.market pm.maxPrice pm.bs = .ok (maxT : ℤ)) := by
  refine ⟨?_, ?_, ?_⟩
  · intro p hmp hp
    unfold marketOrder
    rw [hmp, marketTick_neg hp]
  · intro hap hp
    obtain ⟨c, hc⟩ := @limitGate_ok env pl hap
    unfold limitOrder
    rw [hc, limitTick_nonpos hp]
    exact ⟨rfl, fun t => limitPre_no_orderTx⟩
  · intro hmp
    rw [hmp]
    unfold marketTick
    dsimp only
    rw [if_pos rfl]

theorem C5_nonpositive_price_behaviour_witness :
    marketOrder MAX_TICK env0 pmNeg = (.error .invalidPrice, [])
    ∧ (limitOrder MAX_TICK env0 plNeg).1 = .error .invalidPrice :=
  ⟨(C5_nonpositive_price_behaviour MAX_TICK env0 pmNeg plNeg).1
      (mkRat (-2) 1) rfl (by decide),
   ((C5_nonpositive_price_behaviour MAX_TICK env0 pmNeg plNeg).2.1
      rfl (by decide)).1⟩

/-- C6: every order transaction either orchestrator submits carries a tick
whose magnitude is within the protocol bound; an intent whose conversion
falls outside the grid is rejected before anything reaches the submission
channel, so no out-of-range tick is ever submitted. -/
theorem C6_submitted_ticks_in_range (maxT : ℕ) (env : Env)
    (pm : MarketOrderProps) (pl : LimitOrderProps) :
    (∀ t : ℤ, Act.orderTx t ∈ (marketOrder maxT env pm).2 → t.natAbs ≤ maxT)
    ∧ (∀ t : ℤ, Act.orderTx t ∈ (limitOrder maxT env pl).2 → t.natAbs ≤ maxT) :=
  ⟨fun _ ht => marketTick_bound (marketOrder_inv ht).1,
   fun _ ht => limitTick_bound (limitOrder_inv ht).1⟩

theorem C6_submitted_ticks_in_range_witness :
    ((MAX_TICK : ℕ) : ℤ).natAbs ≤ MAX_TICK :=
  (C6_submitted_ticks_in_range MAX_TICK env0 propsC4 plNeg).1
    ((MAX_TICK : ℕ) : ℤ) (by decide)

/-- C7: cancelling an offer that no longer exists is a benign no-op: with a
non-reverted receipt whose log holds no removal event for the offer id,
cancelLimitOrder returns a result with the success flag false, rather than
an error. -/
theorem C7_cancel_nonexistent_benign (env : Env) (props : CancelProps)
    (h1 : env.orderReceipt.status = .success)
    (h2 : env.orderReceipt.logs.contains props.offerId = false) :
    cancelLimitOrder env props
      = (.ok (env.orderReceipt, false),
         [.cancelTx props.offerId, .decodeInvoked]) := by
  unfold cancelLimitOrder
  rw [h1]
  unfold removeOrderResultSuccess
  rw [h2]

theorem C7_cancel_nonexistent_benign_witness :
    cancelLimitOrder env0 ⟨mkt0, .sell, 9, true⟩
      = (.ok (env0.orderReceipt, false), [.cancelTx 9, .decodeInvoked]) :=
  C7_cancel_nonexistent_benign env0 ⟨mkt0, .sell, 9, true⟩ rfl (by decide)

/-- C8: for a price strictly off the tick grid, the conversion resolves to a
tick whose grid price is strictly below the requested price, and to the
greatest such valid tick: rounding is always toward the conservative side,
never to a tick more favorable than the requested price. -/
theorem C8_rounding_conservative (maxT s : ℕ) (p : ℚ) (t : ℤ)
    (hok : tickFromPrice maxT s p = .ok t)
    (hoff : ∀ u ∈ gridTicks maxT s, gridPrice u ≠ p) :
    gridPrice t < p ∧ ∀ u ∈ gridTicks maxT s, gridPrice u ≤ p → u ≤ t :=
  ⟨lt_of_le_of_ne (tickFromPrice_ok hok).2 (hoff t (tickFromPrice_ok hok).1),
   tickFromPrice_max hok⟩

theorem C8_rounding_conservative_witness :
    gridPrice 0 < mkRat 20001 20000
    ∧ ∀ u ∈ gridTicks 2 1, gridPrice u ≤ mkRat 20001 20000 → u ≤ 0 :=
  C8_rounding_conservative 2 1 (mkRat 20001 20000) 0 (by decide) (by decide)

/-- C9: a market order without a price bound uses the protocol's
unbounded-price sentinel: the tick phase yields the maximum tick regardless
of the trade direction, and any order transaction the orchestrator submits
carries exactly that tick. -/
theorem C9_no_bound_uses_sentinel (maxT : ℕ) (env : Env)
    (props : MarketOrderProps) (h : props.maxPrice = none) :
    marketTick maxT props.market props.maxPrice props.bs = .ok (maxT : ℤ)
    ∧ ∀ t : ℤ, Act.orderTx t ∈ (marketOrder maxT env props).2 →
        t = (maxT : ℤ) := by
  have h1 : marketTick maxT props.market props.maxPrice props.bs
      = .ok (maxT : ℤ) := by
    rw [h]
    rfl
  refine ⟨h1, fun t ht => ?_⟩
  have h2 := (marketOrder_inv ht).1
  rw [h1] at h2
  injection h2 with h2
  exact h2.symm

theorem C9_no_bound_uses_sentinel_witness :
    marketTick MAX_TICK propsC4.market propsC4.maxPrice propsC4.bs
      = .ok ((MAX_TICK : ℕ) : ℤ) :=
  (C9_no_bound_uses_sentinel MAX_TICK env0 propsC4 rfl).1

/-- C10 counterexample: the claim fails on the code for a market whose base
and quote token share one address.  The quote balance is written after the
base balance, so the shared address maps to the odd-position balance 7, while
the claim requires the base address to map to the even-position balance 5. -/
theorem C10_cex :
    mapGet (getBalances [⟨⟨7, 18⟩, ⟨7, 6⟩, 1⟩] [5, 7]) 7 = some 7
    ∧ (7 : ℕ) ≠ 5 :=
  ⟨by decide, by decide⟩

/-- C10 amended: every key of the returned map is the base or quote address
of some input market; for each input market, its base address maps to the
balance at the corresponding even position and its quote address to the
following odd position, where the last write to an address wins: a later
market mentioning the address overrides, and within one market whose base
and quote coincide the quote write at the odd position wins. -/
theorem C10_balances_positions (markets : List Market) (results : List Nat)
    (hlen : results.length = 2 * markets.length) :
    (∀ a : Address, (mapGet (getBalances markets results) a).isSome →
        ∃ m ∈ markets, mentions m a)
    ∧ (∀ (i : ℕ) (m : Market) (a : Address),
        markets[i]? = some m →
        (∀ j, i < j → ∀ m', markets[j]? = some m' → ¬ mentions m' a) →
        ((a = m.quote.address →
            mapGet (getBalances markets results) a = results[2 * i + 1]?)
          ∧ (a = m.base.address → m.quote.address ≠ a →
              mapGet (getBalances markets results) a = results[2 * i]?))) := by
  constructor
  · intro a h
    rcases balancesGo_keys markets results [] h with h1 | h1
    · exact h1
    · simp [mapGet] at h1
  · intro i m a hm hlater
    exact balancesGo_get i markets results [] m hlen hm hlater

/-- Two concrete disjoint markets for the balance-query witness. -/
def w10markets : List Market := [⟨⟨1, 0⟩, ⟨2, 0⟩, 1⟩, ⟨⟨3, 0⟩, ⟨4, 0⟩, 1⟩]

theorem C10_balances_positions_witness :
    mapGet (getBalances w10markets [10, 20, 30, 40]) 3 = some 30 := by
  have hlater : ∀ j, 1 < j → ∀ m', w10markets[j]? = some m' →
      ¬ mentions m' 3 := by
    intro j hj m' hm'
    obtain ⟨k, rfl⟩ : ∃ k, j = k + 2 := ⟨j - 2, by omega⟩
    unfold w10markets at hm'
    rw [List.getElem?_cons_succ, List.getElem?_cons_succ] at hm'
    simp at hm'
  have h := ((C10_balances_positions w10markets [10, 20, 30, 40]
      (by decide)).2 1 ⟨⟨3, 0⟩, ⟨4, 0⟩, 1⟩ 3 (by decide) hlater).2 rfl (by decide)
  rw [h]
  decide
